import Mathlib

/-!
Verification of the Argument Clinic sources under Tools/clinic.
The Lean definitions below are shallow embeddings of:
  - Tools/clinic/clinic/option_groups.py  (permutation engine)
  - Tools/clinic/libclinic/parser.py      (line lexer)
  - Tools/clinic/libclinic/version.py     (version comparator)
  - Tools/clinic/libclinic/cli.py         (driver / per-file orchestration)
Parameters are modelled by an arbitrary type; Python tuples and lists by
Lean lists; raised exceptions by `Except`.
-/

namespace ArgClinic

variable {α : Type}

/-- Loop of `permute_left_option_groups` (option_groups.py): the Python code
iterates over `reversed(l)` with `accumulator = list(group) + accumulator`,
yielding the accumulator after each step.  Here `gs` is the still-unconsumed
reversed list and `acc` the accumulator. -/
def permuteLeftGo : List (List α) → List α → List (List α)
  | [], _ => []
  | g :: gs, acc => (g ++ acc) :: permuteLeftGo gs (g ++ acc)

/-- `permute_left_option_groups` from option_groups.py: first yields the empty
tuple, then accumulates groups taken from the end of the list backwards. -/
def permute_left_option_groups (l : List (List α)) : List (List α) :=
  [] :: permuteLeftGo l.reverse []

/-- Loop of `permute_right_option_groups` (option_groups.py): iterates over `l`
in order with `accumulator.extend(group)`, yielding after each step. -/
def permuteRightGo : List (List α) → List α → List (List α)
  | [], _ => []
  | g :: gs, acc => (acc ++ g) :: permuteRightGo gs (acc ++ g)

/-- `permute_right_option_groups` from option_groups.py. -/
def permute_right_option_groups (l : List (List α)) : List (List α) :=
  [] :: permuteRightGo l []

/-- The doubly nested loop of `permute_optional_groups`: for every
right-permutation (outer) and left-permutation (inner), the concatenation
`l + required + r`, in visitation order. -/
def optionGroupVariants (left : List (List α)) (required : List α)
    (right : List (List α)) : List (List α) :=
  (permute_right_option_groups right).flatMap fun r =>
    (permute_left_option_groups left).map fun l => l ++ required ++ r

/-- The `counts` set of `permute_optional_groups`: keep a variant only the
first time its length is seen.  `counts` is the set of lengths already seen
(a list, used only through membership, mirroring the Python `set`). -/
def dedupByLen : List (List α) → List Nat → List (List α)
  | [], _ => []
  | t :: ts, counts =>
    if t.length ∈ counts then dedupByLen ts counts
    else t :: dedupByLen ts (t.length :: counts)

/-- Insertion step of the final `accumulator.sort(key=len)`. -/
def insertByLen (t : List α) : List (List α) → List (List α)
  | [] => [t]
  | u :: us => if t.length ≤ u.length then t :: u :: us else u :: insertByLen t us

/-- The final `accumulator.sort(key=len)` of `permute_optional_groups`.
At the call site all lengths are pairwise distinct (the accumulator was
deduplicated by length), so every comparison sort — in particular Python's
stable sort — computes this same list. -/
def sortByLen : List (List α) → List (List α)
  | [] => []
  | t :: ts => insertByLen t (sortByLen ts)

/-- `permute_optional_groups` from option_groups.py.  The Python function
raises `ValueError("required is empty but left is not")` when `required` is
empty and `left` is not; otherwise it collects `l + required + r` over the
nested loops, keeps the first variant of each length, sorts by length, and
returns the result. -/
def permute_optional_groups (left : List (List α)) (required : List α)
    (right : List (List α)) : Except String (List (List α)) :=
  if required.isEmpty && !left.isEmpty then
    .error "required is empty but left is not"
  else
    .ok (sortByLen (dedupByLen (optionGroupVariants left required right) []))

end ArgClinic

namespace ArgClinic

variable {α : Type}

theorem permuteLeftGo_eq (gs : List (List α)) :
    ∀ acc, permuteLeftGo gs acc =
      (List.range gs.length).map fun k => ((gs.take (k + 1)).reverse).flatten ++ acc := by
  induction gs with
  | nil => intro acc; rfl
  | cons g gs ih =>
    intro acc
    simp only [permuteLeftGo, ih (g ++ acc), List.length_cons, List.range_succ_eq_map,
      List.map_cons, List.map_map]
    congr 1
    · simp
    · apply List.map_congr_left
      intro k _
      simp [List.take_succ_cons, List.reverse_cons, List.append_assoc]

theorem permuteRightGo_eq (gs : List (List α)) :
    ∀ acc, permuteRightGo gs acc =
      (List.range gs.length).map fun k => acc ++ (gs.take (k + 1)).flatten := by
  induction gs with
  | nil => intro acc; rfl
  | cons g gs ih =>
    intro acc
    simp only [permuteRightGo, ih (acc ++ g), List.length_cons, List.range_succ_eq_map,
      List.map_cons, List.map_map]
    congr 1
    · simp
    · apply List.map_congr_left
      intro k _
      simp [List.take_succ_cons, List.append_assoc]

theorem permute_left_eq (l : List (List α)) :
    permute_left_option_groups l =
      (List.range (l.length + 1)).map fun k => (l.drop (l.length - k)).flatten := by
  unfold permute_left_option_groups
  rw [permuteLeftGo_eq, List.range_succ_eq_map]
  simp only [List.map_cons, List.map_map, List.length_reverse]
  congr 1
  · simp
  · apply List.map_congr_left
    intro k _
    simp only [Function.comp_apply, List.append_nil]
    rw [List.take_reverse, List.reverse_reverse]

theorem permute_right_eq (l : List (List α)) :
    permute_right_option_groups l =
      (List.range (l.length + 1)).map fun k => (l.take k).flatten := by
  unfold permute_right_option_groups
  rw [permuteRightGo_eq, List.range_succ_eq_map]
  simp [Function.comp_def]

theorem mem_permute_left (l : List (List α)) (x : List α) :
    x ∈ permute_left_option_groups l ↔
      ∃ n, n ≤ l.length ∧ x = (l.drop n).flatten := by
  rw [permute_left_eq]
  simp only [List.mem_map, List.mem_range]
  constructor
  · rintro ⟨k, _, rfl⟩
    exact ⟨l.length - k, Nat.sub_le _ _, rfl⟩
  · rintro ⟨n, hn, rfl⟩
    exact ⟨l.length - n, by omega, by rw [Nat.sub_sub_self hn]⟩

theorem mem_permute_right (l : List (List α)) (x : List α) :
    x ∈ permute_right_option_groups l ↔
      ∃ n, n ≤ l.length ∧ x = (l.take n).flatten := by
  rw [permute_right_eq]
  simp only [List.mem_map, List.mem_range]
  constructor
  · rintro ⟨k, hk, rfl⟩
    exact ⟨k, by omega, rfl⟩
  · rintro ⟨n, hn, rfl⟩
    exact ⟨n, by omega, rfl⟩

theorem mem_variants (left : List (List α)) (required : List α)
    (right : List (List α)) (t : List α) :
    t ∈ optionGroupVariants left required right ↔
      ∃ nl nr, nl ≤ left.length ∧ nr ≤ right.length ∧
        t = (left.drop nl).flatten ++ required ++ (right.take nr).flatten := by
  unfold optionGroupVariants
  simp only [List.mem_flatMap, List.mem_map, mem_permute_right, mem_permute_left]
  constructor
  · rintro ⟨r, ⟨nr, hnr, rfl⟩, l, ⟨nl, hnl, rfl⟩, rfl⟩
    exact ⟨nl, nr, hnl, hnr, rfl⟩
  · rintro ⟨nl, nr, hnl, hnr, rfl⟩
    exact ⟨_, ⟨nr, hnr, rfl⟩, _, ⟨nl, hnl, rfl⟩, rfl⟩

theorem pogCond_iff (left : List (List α)) (required : List α) :
    (required.isEmpty && !left.isEmpty) = true ↔ (required = [] ∧ left ≠ []) := by
  cases required <;> cases left <;> simp

theorem dedupByLen_sub :
    ∀ (ts : List (List α)) (counts : List Nat) (u : List α),
      u ∈ dedupByLen ts counts → u ∈ ts := by
  intro ts
  induction ts with
  | nil => intro counts u h; simp [dedupByLen] at h
  | cons t ts ih =>
    intro counts u h
    by_cases hc : t.length ∈ counts
    · simp only [dedupByLen, if_pos hc] at h
      exact List.mem_cons_of_mem _ (ih _ _ h)
    · simp only [dedupByLen, if_neg hc, List.mem_cons] at h
      rcases h with rfl | h
      · exact List.mem_cons_self _ _
      · exact List.mem_cons_of_mem _ (ih _ _ h)

theorem dedupByLen_len_notMem :
    ∀ (ts : List (List α)) (counts : List Nat) (u : List α),
      u ∈ dedupByLen ts counts → u.length ∉ counts := by
  intro ts
  induction ts with
  | nil => intro counts u h; simp [dedupByLen] at h
  | cons t ts ih =>
    intro counts u h
    by_cases hc : t.length ∈ counts
    · simp only [dedupByLen, if_pos hc] at h
      exact ih _ _ h
    · simp only [dedupByLen, if_neg hc, List.mem_cons] at h
      rcases h with rfl | h
      · exact hc
      · have := ih _ _ h
        intro hmem
        exact this (List.mem_cons_of_mem _ hmem)

theorem dedupByLen_nodupLen :
    ∀ (ts : List (List α)) (counts : List Nat),
      ((dedupByLen ts counts).map List.length).Nodup := by
  intro ts
  induction ts with
  | nil => intro counts; simp [dedupByLen]
  | cons t ts ih =>
    intro counts
    by_cases hc : t.length ∈ counts
    · simp only [dedupByLen, if_pos hc]
      exact ih _
    · simp only [dedupByLen, if_neg hc, List.map_cons, List.nodup_cons]
      refine ⟨?_, ih _⟩
      intro hmem
      rcases List.mem_map.1 hmem with ⟨u, hu, hlen⟩
      have := dedupByLen_len_notMem ts (t.length :: counts) u hu
      exact this (hlen ▸ List.mem_cons_self _ _)

theorem dedupByLen_find :
    ∀ (ts : List (List α)) (counts : List Nat) (u : List α),
      u ∈ dedupByLen ts counts →
      ts.find? (fun v => v.length == u.length) = some u := by
  intro ts
  induction ts with
  | nil => intro counts u h; simp [dedupByLen] at h
  | cons t ts ih =>
    intro counts u h
    by_cases hc : t.length ∈ counts
    · simp only [dedupByLen, if_pos hc] at h
      have hne : t.length ≠ u.length := by
        have := dedupByLen_len_notMem ts counts u h
        intro heq
        exact this (heq ▸ hc)
      rw [List.find?_cons_of_neg _ (by simp [hne])]
      exact ih _ _ h
    · simp only [dedupByLen, if_neg hc, List.mem_cons] at h
      rcases h with rfl | h
      · exact List.find?_cons_of_pos _ (by simp)
      · have hnotc := dedupByLen_len_notMem ts (t.length :: counts) u h
        have hne : t.length ≠ u.length := by
          intro heq
          exact hnotc (heq ▸ List.mem_cons_self _ _)
        rw [List.find?_cons_of_neg _ (by simp [hne])]
        exact ih (t.length :: counts) u h

theorem dedupByLen_covers :
    ∀ (ts : List (List α)) (counts : List Nat) (t : List α),
      t ∈ ts → t.length ∉ counts →
      ∃ u ∈ dedupByLen ts counts, u.length = t.length := by
  intro ts
  induction ts with
  | nil => intro counts t h; simp at h
  | cons s ts ih =>
    intro counts t ht hc
    by_cases hs : s.length ∈ counts
    · simp only [dedupByLen, if_pos hs]
      rcases List.mem_cons.1 ht with rfl | ht'
      · exact absurd hs hc
      · exact ih counts t ht' hc
    · simp only [dedupByLen, if_neg hs]
      by_cases hlen : t.length = s.length
      · exact ⟨s, List.mem_cons_self _ _, hlen.symm⟩
      · rcases List.mem_cons.1 ht with rfl | ht'
        · exact absurd rfl hlen
        · have hc' : t.length ∉ s.length :: counts := by
            intro hmem
            rcases List.mem_cons.1 hmem with heq | hmem'
            · exact hlen heq
            · exact hc hmem'
          rcases ih (s.length :: counts) t ht' hc' with ⟨u, hu, hul⟩
          exact ⟨u, List.mem_cons_of_mem _ hu, hul⟩

theorem insertByLen_perm (t : List α) :
    ∀ us : List (List α), (insertByLen t us).Perm (t :: us) := by
  intro us
  induction us with
  | nil => simp [insertByLen]
  | cons u us ih =>
    simp only [insertByLen]
    by_cases h : t.length ≤ u.length
    · rw [if_pos h]
    · rw [if_neg h]
      exact (ih.cons u).trans (List.Perm.swap _ _ _)

theorem sortByLen_perm (ts : List (List α)) : (sortByLen ts).Perm ts := by
  induction ts with
  | nil => simp [sortByLen]
  | cons t ts ih =>
    simp only [sortByLen]
    exact (insertByLen_perm t (sortByLen ts)).trans (ih.cons t)

theorem insertByLen_sorted (t : List α) :
    ∀ us : List (List α), us.Pairwise (fun a b => a.length ≤ b.length) →
      (insertByLen t us).Pairwise (fun a b => a.length ≤ b.length) := by
  intro us
  induction us with
  | nil => intro _; simp [insertByLen]
  | cons u us ih =>
    intro h
    rcases List.pairwise_cons.1 h with ⟨hu, hus⟩
    simp only [insertByLen]
    by_cases hle : t.length ≤ u.length
    · rw [if_pos hle]
      refine List.pairwise_cons.2 ⟨?_, h⟩
      intro x hx
      rcases List.mem_cons.1 hx with rfl | hx'
      · exact hle
      · exact le_trans hle (hu x hx')
    · rw [if_neg hle]
      refine List.pairwise_cons.2 ⟨?_, ih hus⟩
      intro x hx
      have hx' := (insertByLen_perm t us).mem_iff.1 hx
      rcases List.mem_cons.1 hx' with rfl | hx''
      · omega
      · exact hu x hx''

theorem sortByLen_sorted (ts : List (List α)) :
    (sortByLen ts).Pairwise (fun a b => a.length ≤ b.length) := by
  induction ts with
  | nil => simp [sortByLen]
  | cons t ts ih => exact insertByLen_sorted t (sortByLen ts) ih

/-- The correctness property of `permute_optional_groups` on accepted input:
the result is strictly sorted by length (hence has exactly one tuple per
achievable total length), every element concatenates a flattened tail segment
of the left groups (`left.drop nl`), the required tuple, and a flattened
initial segment of the right groups (`right.take nr`), every achievable total
length occurs, and each element is the first variant of its length in
visitation order (outer loop over right-permutations ascending, inner loop
over left-permutations ascending). -/
def pogSpec (left : List (List α)) (required : List α) (right : List (List α))
    (res : List (List α)) : Prop :=
  res.Pairwise (fun a b => a.length < b.length) ∧
  (∀ t ∈ res, ∃ nl nr, nl ≤ left.length ∧ nr ≤ right.length ∧
      t = (left.drop nl).flatten ++ required ++ (right.take nr).flatten) ∧
  (∀ nl nr, nl ≤ left.length → nr ≤ right.length →
      ∃ u ∈ res,
        u.length =
          ((left.drop nl).flatten ++ required ++ (right.take nr).flatten).length) ∧
  (∀ t ∈ res, (optionGroupVariants left required right).find?
      (fun v => v.length == t.length) = some t)

/-- C3: `permute_left_option_groups` yields first the empty tuple and then,
one at a time, tuples formed by prepending the next group taken from the end
of the input list backward (element `k` of the output is the flattening of
the last `k` groups); for `[[1], [2], [3]]` it yields exactly, in order,
`[]`, `[3]`, `[2, 3]`, `[1, 2, 3]`. -/
theorem permute_left_claim :
    (∀ (β : Type) (l : List (List β)),
        permute_left_option_groups l =
          (List.range (l.length + 1)).map fun k => (l.drop (l.length - k)).flatten) ∧
    permute_left_option_groups [[1], [2], [3]] =
      ([[], [3], [2, 3], [1, 2, 3]] : List (List Nat)) := by
  exact ⟨fun β l => permute_left_eq l, by decide⟩

/-- C2: `permute_optional_groups` fails (with the error naming the broken
invariant) exactly when the required list is empty and the left group list is
non-empty; in every other case it returns normally.  In particular
`permute_optional_groups [[1], [2], [3]] [] [[4], [5], [6]]` errors. -/
theorem permute_optional_groups_error_claim :
    (∀ (β : Type) (left : List (List β)) (required : List β)
        (right : List (List β)),
        ((∃ e, permute_optional_groups left required right = Except.error e) ↔
          (required = [] ∧ left ≠ [])) ∧
        (¬(required = [] ∧ left ≠ []) →
          ∃ res, permute_optional_groups left required right = Except.ok res)) ∧
    permute_optional_groups [[1], [2], [3]] ([] : List Nat) [[4], [5], [6]] =
      Except.error "required is empty but left is not" := by
  constructor
  · intro β left required right
    by_cases h : required = [] ∧ left ≠ []
    · have hb := (pogCond_iff left required).2 h
      constructor
      · exact ⟨fun _ => h, fun _ =>
          ⟨"required is empty but left is not", by simp [permute_optional_groups, hb]⟩⟩
      · intro hc
        exact absurd h hc
    · have hb : (required.isEmpty && !left.isEmpty) = false := by
        rcases Bool.eq_false_or_eq_true (required.isEmpty && !left.isEmpty) with ht | hf
        · exact absurd ((pogCond_iff left required).1 ht) h
        · exact hf
      constructor
      · constructor
        · rintro ⟨e, he⟩
          simp [permute_optional_groups, hb] at he
        · intro hc
          exact absurd hc h
      · intro _
        exact ⟨sortByLen (dedupByLen (optionGroupVariants left required right) []),
          by simp [permute_optional_groups, hb]⟩
  · rfl

/-- Witness for C2: the equivalence applied at a concrete accepted input. -/
theorem permute_optional_groups_error_claim_witness :
    ∃ res, permute_optional_groups ([[1]] : List (List Nat)) [2] [] =
      Except.ok res :=
  (permute_optional_groups_error_claim.1 Nat [[1]] [2] []).2 (by simp)

/-- C10: with no optional groups on either side, `permute_optional_groups`
succeeds and returns exactly the one-element list holding the required
parameters; in particular the all-empty signature gives `[[]]`, not an
error. -/
theorem permute_optional_groups_no_groups_claim :
    (∀ (β : Type) (required : List β),
        permute_optional_groups [] required [] = Except.ok [required]) ∧
    permute_optional_groups ([] : List (List Nat)) [] [] = Except.ok [[]] := by
  constructor
  · intro β required
    simp [permute_optional_groups, optionGroupVariants, permute_right_option_groups,
      permute_left_option_groups, permuteRightGo, permuteLeftGo, dedupByLen,
      sortByLen, insertByLen]
  · rfl

/-- C1: on every accepted input, `permute_optional_groups` returns the
length-sorted, length-deduplicated list of concatenations
`left_variant ++ required ++ right_variant` (left variants flatten tail
segments of `left`, right variants flatten initial segments of `right`),
with exactly one tuple per achievable total length, each being the first
variant of its length in visitation order; in particular
`permute_optional_groups [] [10] [[20], [30]]` returns
`[[10], [10, 20], [10, 20, 30]]`. -/
theorem permute_optional_groups_result_claim :
    (∀ (β : Type) (left : List (List β)) (required : List β)
        (right : List (List β)),
        ¬(required = [] ∧ left ≠ []) →
        ∃ res, permute_optional_groups left required right = Except.ok res ∧
          pogSpec left required right res) ∧
    permute_optional_groups ([] : List (List Nat)) [10] [[20], [30]] =
      Except.ok [[10], [10, 20], [10, 20, 30]] := by
  constructor
  · intro β left required right h
    have hb : (required.isEmpty && !left.isEmpty) = false := by
      rcases Bool.eq_false_or_eq_true (required.isEmpty && !left.isEmpty) with ht | hf
      · exact absurd ((pogCond_iff left required).1 ht) h
      · exact hf
    refine ⟨sortByLen (dedupByLen (optionGroupVariants left required right) []),
      by simp [permute_optional_groups, hb], ?_, ?_, ?_, ?_⟩
    · have h1 := sortByLen_sorted (dedupByLen (optionGroupVariants left required right) [])
      have hperm := sortByLen_perm (dedupByLen (optionGroupVariants left required right) [])
      have h2 : ((sortByLen (dedupByLen (optionGroupVariants left required right) [])).map
          List.length).Nodup :=
        ((hperm.map List.length).nodup_iff).2
          (dedupByLen_nodupLen (optionGroupVariants left required right) [])
      have h3 := List.pairwise_map.1 h2
      exact (h1.and h3).imp fun hab => lt_of_le_of_ne hab.1 hab.2
    · intro t ht
      have hperm := sortByLen_perm (dedupByLen (optionGroupVariants left required right) [])
      have hmem : t ∈ optionGroupVariants left required right :=
        dedupByLen_sub _ [] t (hperm.mem_iff.1 ht)
      exact (mem_variants left required right t).1 hmem
    · intro nl nr hnl hnr
      have hperm := sortByLen_perm (dedupByLen (optionGroupVariants left required right) [])
      have hmem : (left.drop nl).flatten ++ required ++ (right.take nr).flatten ∈
          optionGroupVariants left required right :=
        (mem_variants left required right _).2 ⟨nl, nr, hnl, hnr, rfl⟩
      rcases dedupByLen_covers _ [] _ hmem (by simp) with ⟨u, hu, hul⟩
      exact ⟨u, hperm.mem_iff.2 hu, hul⟩
    · intro t ht
      have hperm := sortByLen_perm (dedupByLen (optionGroupVariants left required right) [])
      exact dedupByLen_find _ [] t (hperm.mem_iff.1 ht)
  · rfl

/-- Witness for C1: the result specification at a concrete accepted input. -/
theorem permute_optional_groups_result_claim_witness :
    ∃ res, permute_optional_groups ([[1]] : List (List Nat)) [2] [] =
      Except.ok res ∧ pogSpec [[1]] [2] [] res :=
  permute_optional_groups_result_claim.1 Nat [[1]] [2] [] (by simp)

/-- Token kinds of libclinic/parser.py (`token_specification`).  SPACE and
MISMATCH exist in the specification table but are never yielded: SPACE
matches are skipped and MISMATCH raises `ParseError`. -/
inductive TokKind
  | ARROW
  | CLONE
  | ARGS
  | WORD
  | SPACE
  | MISMATCH
deriving DecidableEq, Repr

/-- A `Token` named tuple of libclinic/parser.py: `(kind, value)`. -/
structure Token where
  kind : TokKind
  value : List Char
deriving DecidableEq, Repr

/-- A character of the `WORD` class `[\w.]+` of libclinic/parser.py.  The
regex class `\w` is modelled as ASCII alphanumerics plus underscore (the
class `[A-Za-z0-9_.]` on the ASCII inputs considered here). -/
def isWordChar (c : Char) : Bool :=
  c.isAlphanum || c = '_' || c = '.'

/-- The greedy `ARGS` match `\(.*\)` after the opening parenthesis: `.*\)`
consumes up to the LAST `)` on the line (and `.` does not cross a newline).
Returns the consumed span and the remainder, or `none` when no `)` is
reachable. -/
def splitAtLastRParen : List Char → Option (List Char × List Char)
  | [] => none
  | c :: rest =>
    if c = '\n' then none
    else
      match splitAtLastRParen rest with
      | some (v, r) => some (c :: v, r)
      | none => if c = ')' then some ([c], rest) else none

theorem splitAtLastRParen_append :
    ∀ (cs v r : List Char), splitAtLastRParen cs = some (v, r) → cs = v ++ r := by
  intro cs
  induction cs with
  | nil => intro v r h; simp [splitAtLastRParen] at h
  | cons c rest ih =>
    intro v r h
    by_cases hn : c = '\n'
    · simp [splitAtLastRParen, hn] at h
    · simp only [splitAtLastRParen, if_neg hn] at h
      rcases hsp : splitAtLastRParen rest with _ | ⟨v', r'⟩
      · rw [hsp] at h
        by_cases hp : c = ')'
        · simp only [if_pos hp, Option.some.injEq, Prod.mk.injEq] at h
          rcases h with ⟨h1, h2⟩
          simp [← h1, ← h2]
        · simp [if_neg hp] at h
      · rw [hsp] at h
        simp only [Option.some.injEq, Prod.mk.injEq] at h
        rcases h with ⟨h1, h2⟩
        have := ih v' r' hsp
        simp [← h1, ← h2, this]

theorem splitAtLastRParen_length (cs v r : List Char)
    (h : splitAtLastRParen cs = some (v, r)) : r.length < cs.length := by
  have happ := splitAtLastRParen_append cs v r h
  have hv : v ≠ [] := by
    intro hveq
    rw [hveq] at h
    cases cs with
    | nil => simp [splitAtLastRParen] at h
    | cons c rest =>
      by_cases hn : c = '\n'
      · simp [splitAtLastRParen, hn] at h
      · simp only [splitAtLastRParen, if_neg hn] at h
        rcases hsp : splitAtLastRParen rest with _ | ⟨v', r'⟩
        · rw [hsp] at h
          by_cases hp : c = ')'
          · simp [if_pos hp] at h
          · simp [if_neg hp] at h
        · rw [hsp] at h
          simp at h
  rw [happ, List.length_append]
  cases v with
  | nil => exact absurd rfl hv
  | cons a v' => simp

theorem dropWhile_length_le (p : Char → Bool) :
    ∀ l : List Char, (l.dropWhile p).length ≤ l.length := by
  intro l
  induction l with
  | nil => simp
  | cons a l ih =>
    by_cases h : p a <;> simp [List.dropWhile_cons, h] <;> omega

/-- `tokenize` from libclinic/parser.py, operating on the characters of one
line.  `re.finditer` over the alternation `->|=|\(.*\)|[\w.]+|[ ]+|.` scans
left to right; at each position the first alternative in the priority order
ARROW, CLONE, ARGS, WORD, SPACE, MISMATCH that matches wins, each matching
greedily.  SPACE matches are skipped; a MISMATCH raises
`ParseError(f"{value!r} stray character in input")`, modelled as
`Except.error` carrying the offending character.  A newline matches no
alternative at all (`.` excludes it) and is silently skipped by `finditer`. -/
def tokenize : List Char → Except Char (List Token)
  | [] => .ok []
  | '-' :: '>' :: rest =>
    (tokenize rest).map fun ts => ⟨.ARROW, ['-', '>']⟩ :: ts
  | '=' :: rest =>
    (tokenize rest).map fun ts => ⟨.CLONE, ['=']⟩ :: ts
  | '(' :: rest =>
    match hsp : splitAtLastRParen rest with
    | some (v, r) => (tokenize r).map fun ts => ⟨.ARGS, '(' :: v⟩ :: ts
    | none => .error '('
  | c :: rest =>
    if isWordChar c then
      (tokenize (rest.dropWhile isWordChar)).map
        fun ts => ⟨.WORD, c :: rest.takeWhile isWordChar⟩ :: ts
    else if c = ' ' then tokenize (rest.dropWhile fun d => d = ' ')
    else if c = '\n' then tokenize rest
    else .error c
termination_by cs => cs.length
decreasing_by
  · simp; omega
  · simp
  · exact Nat.lt_succ_of_lt (splitAtLastRParen_length _ _ _ hsp)
  · exact Nat.lt_succ_of_le (dropWhile_length_le _ _)
  · exact Nat.lt_succ_of_le (dropWhile_length_le _ _)
  · simp

/-- C4: tokenizing `"foo(bar)->baz=1"` succeeds and yields exactly, in order,
WORD(foo), ARGS((bar)), ARROW(->), WORD(baz), CLONE(=), WORD(1) — no SPACE
tokens and no failure; the ARGS alternative wins over WORD at the opening
parenthesis and swallows greedily up to the last `)` of the line. -/
theorem tokenize_example_claim :
    tokenize "foo(bar)->baz=1".toList =
      Except.ok [⟨.WORD, "foo".toList⟩, ⟨.ARGS, "(bar)".toList⟩,
        ⟨.ARROW, "->".toList⟩, ⟨.WORD, "baz".toList⟩, ⟨.CLONE, "=".toList⟩,
        ⟨.WORD, "1".toList⟩] := by
  simp [tokenize, splitAtLastRParen, isWordChar, List.dropWhile, List.takeWhile,
    Except.map]

theorem exceptMap_cons_ok {tok : Token} {e : Except Char (List Token)}
    {ts : List Token}
    (h : Except.map (fun ts' => tok :: ts') e = Except.ok ts) :
    ∃ ts', e = Except.ok ts' ∧ ts = tok :: ts' := by
  cases e with
  | ok ts' =>
    refine ⟨ts', rfl, ?_⟩
    simp only [Except.map, Except.ok.injEq] at h
    exact h.symm
  | error c => simp [Except.map] at h

theorem mem_takeWhile_or_dropWhile (p : Char → Bool) (l : List Char) (a : Char)
    (h : a ∈ l) : a ∈ l.takeWhile p ∨ a ∈ l.dropWhile p := by
  rw [← List.takeWhile_append_dropWhile p l] at h
  exact List.mem_append.1 h

theorem tokenize_ok_aux :
    ∀ (cs : List Char) (ts : List Token), tokenize cs = Except.ok ts →
      (∀ t ∈ ts, t.kind ≠ TokKind.SPACE) ∧
      ('#' ∈ cs → ∃ t ∈ ts, t.kind = TokKind.ARGS ∧ '#' ∈ t.value) := by
  intro cs
  induction cs using tokenize.induct with
  | case1 =>
    intro ts h
    simp only [tokenize] at h
    cases h
    exact ⟨by simp, by simp⟩
  | case2 rest ih =>
    intro ts h
    simp only [tokenize] at h
    rcases exceptMap_cons_ok h with ⟨ts', hrec, rfl⟩
    rcases ih ts' hrec with ⟨hsp, hhash⟩
    constructor
    · intro t htm
      rcases List.mem_cons.1 htm with rfl | htm'
      · simp
      · exact hsp t htm'
    · intro hmem
      have hrest : '#' ∈ rest := by
        rcases List.mem_cons.1 hmem with h1 | hmem'
        · exact absurd h1 (by decide)
        · rcases List.mem_cons.1 hmem' with h2 | h3
          · exact absurd h2 (by decide)
          · exact h3
      rcases hhash hrest with ⟨t, ht, hk, hv⟩
      exact ⟨t, List.mem_cons_of_mem _ ht, hk, hv⟩
  | case3 rest ih =>
    intro ts h
    simp only [tokenize] at h
    rcases exceptMap_cons_ok h with ⟨ts', hrec, rfl⟩
    rcases ih ts' hrec with ⟨hsp, hhash⟩
    constructor
    · intro t htm
      rcases List.mem_cons.1 htm with rfl | htm'
      · simp
      · exact hsp t htm'
    · intro hmem
      have hrest : '#' ∈ rest := by
        rcases List.mem_cons.1 hmem with h1 | hmem'
        · exact absurd h1 (by decide)
        · exact hmem'
      rcases hhash hrest with ⟨t, ht, hk, hv⟩
      exact ⟨t, List.mem_cons_of_mem _ ht, hk, hv⟩
  | case4 rest v r hspl ih =>
    intro ts h
    rw [tokenize.eq_4] at h
    split at h
    next v' r' heq =>
      rw [hspl] at heq
      simp only [Option.some.injEq, Prod.mk.injEq] at heq
      rcases heq with ⟨hv, hr⟩
      subst hv
      subst hr
      rcases exceptMap_cons_ok h with ⟨ts', hrec, rfl⟩
      rcases ih ts' hrec with ⟨hsp, hhash⟩
      constructor
      · intro t htm
        rcases List.mem_cons.1 htm with rfl | htm'
        · simp
        · exact hsp t htm'
      · intro hmem
        have hrest : '#' ∈ rest := by
          rcases List.mem_cons.1 hmem with h1 | hmem'
          · exact absurd h1 (by decide)
          · exact hmem'
        rw [splitAtLastRParen_append rest v r hspl] at hrest
        rcases List.mem_append.1 hrest with hin | hin
        · exact ⟨⟨TokKind.ARGS, '(' :: v⟩, List.mem_cons_self _ _, rfl,
            List.mem_cons_of_mem _ hin⟩
        · rcases hhash hin with ⟨t, ht, hk, hvmem⟩
          exact ⟨t, List.mem_cons_of_mem _ ht, hk, hvmem⟩
    next heq =>
      rw [hspl] at heq
      cases heq
  | case5 rest hspl =>
    intro ts h
    rw [tokenize.eq_4] at h
    split at h
    next v' r' heq =>
      rw [hspl] at heq
      cases heq
    next heq =>
      cases h
  | case6 c rest h1 h2 h3 hw ih =>
    intro ts h
    rw [tokenize.eq_5 c rest h1 h2 h3, if_pos hw] at h
    rcases exceptMap_cons_ok h with ⟨ts', hrec, rfl⟩
    rcases ih ts' hrec with ⟨hsp, hhash⟩
    constructor
    · intro t htm
      rcases List.mem_cons.1 htm with rfl | htm'
      · simp
      · exact hsp t htm'
    · intro hmem
      have hch : ('#' : Char) = c → False := by
        intro hc
        rw [← hc] at hw
        exact absurd hw (by decide)
      have hrest : '#' ∈ rest := by
        rcases List.mem_cons.1 hmem with h1' | hmem'
        · exact absurd h1' hch
        · exact hmem'
      rcases mem_takeWhile_or_dropWhile isWordChar rest '#' hrest with hin | hin
      · exact absurd (List.mem_takeWhile_imp hin) (by decide)
      · rcases hhash hin with ⟨t, ht, hk, hvmem⟩
        exact ⟨t, List.mem_cons_of_mem _ ht, hk, hvmem⟩
  | case7 rest h1 h2 h3 hw ih =>
    intro ts h
    rw [tokenize.eq_5 ' ' rest h1 h2 h3, if_neg hw, if_pos rfl] at h
    rcases ih ts h with ⟨hsp, hhash⟩
    refine ⟨hsp, ?_⟩
    intro hmem
    have hrest : '#' ∈ rest := by
      rcases List.mem_cons.1 hmem with h1' | hmem'
      · exact absurd h1' (by decide)
      · exact hmem'
    rcases mem_takeWhile_or_dropWhile (fun d => decide (d = ' ')) rest '#' hrest with hin | hin
    · exact absurd (List.mem_takeWhile_imp hin) (by decide)
    · exact hhash hin
  | case8 rest h1 h2 h3 hw hs ih =>
    intro ts h
    rw [tokenize.eq_5 '\n' rest h1 h2 h3, if_neg hw, if_neg hs, if_pos rfl] at h
    rcases ih ts h with ⟨hsp, hhash⟩
    refine ⟨hsp, ?_⟩
    intro hmem
    have hrest : '#' ∈ rest := by
      rcases List.mem_cons.1 hmem with h1' | hmem'
      · exact absurd h1' (by decide)
      · exact hmem'
    exact hhash hrest
  | case9 c rest h1 h2 h3 hw hs hn =>
    intro ts h
    rw [tokenize.eq_5 c rest h1 h2 h3, if_neg hw, if_neg hs, if_neg hn] at h
    cases h

/-- Counterexample to C5 as stated: the line `"(#)"` contains `'#'`, yet
tokenizing it succeeds (the greedy ARGS alternative `\(.*\)` swallows the
`'#'`), so a line containing `'#'` does not always fail. -/
theorem tokenize_hash_cex :
    ('#' ∈ "(#)".toList) ∧
    tokenize "(#)".toList = Except.ok [⟨TokKind.ARGS, "(#)".toList⟩] := by
  constructor
  · decide
  · simp [tokenize, splitAtLastRParen, Except.map]

/-- C5 amended: for every input line, `tokenize` never yields a token of
kind SPACE; a line containing `'#'` fails with a `ParseError` identifying
that character unless the `'#'` is swallowed by a greedy parenthesized ARGS
match — precisely, whenever tokenization succeeds on a line containing
`'#'`, that `'#'` lies inside the value of a yielded ARGS token.  In
particular `tokenize "baz#"` fails naming `'#'`. -/
theorem tokenize_space_hash_claim :
    (∀ (cs : List Char) (ts : List Token), tokenize cs = Except.ok ts →
        ∀ t ∈ ts, t.kind ≠ TokKind.SPACE) ∧
    (∀ (cs : List Char) (ts : List Token), tokenize cs = Except.ok ts →
        '#' ∈ cs → ∃ t ∈ ts, t.kind = TokKind.ARGS ∧ '#' ∈ t.value) ∧
    tokenize "baz#".toList = Except.error '#' := by
  refine ⟨fun cs ts h => (tokenize_ok_aux cs ts h).1,
    fun cs ts h => (tokenize_ok_aux cs ts h).2, ?_⟩
  simp [tokenize, splitAtLastRParen, isWordChar, List.dropWhile, List.takeWhile,
    Except.map]

/-- Witness for C5 (amended): both universally quantified parts applied at
concrete tokenizations. -/
theorem tokenize_space_hash_claim_witness :
    (Token.mk TokKind.CLONE ['=']).kind ≠ TokKind.SPACE ∧
    (∃ t ∈ [Token.mk TokKind.ARGS ['(', '#', ')']],
        t.kind = TokKind.ARGS ∧ '#' ∈ t.value) := by
  constructor
  · exact tokenize_space_hash_claim.1 "=".toList [⟨TokKind.CLONE, ['=']⟩]
      (by simp [tokenize, Except.map]) ⟨TokKind.CLONE, ['=']⟩ (by simp)
  · exact tokenize_space_hash_claim.2.1 "(#)".toList
      [⟨TokKind.ARGS, ['(', '#', ')']⟩]
      (by simp [tokenize, splitAtLastRParen, Except.map]) (by decide)

/-- Value of a flushed digit accumulator in `_version_splitter`
(libclinic/version.py): `int(''.join(accumulator))`; the accumulator only
ever holds ASCII digits. -/
def digitsVal (acc : List Char) : Int :=
  acc.foldl (fun n c => 10 * n + ((c.toNat - 48 : Nat) : Int)) 0

/-- Conversion of a pre-release letter in `_version_splitter`:
`'abc'.index(c) - 3`, i.e. a → -3, b → -2, c → -1. -/
def abcVal (c : Char) : Int :=
  if c = 'a' then -3 else if c = 'b' then -2 else -1

/-- The character loop of `_version_splitter` (libclinic/version.py).
`version` is the list built so far, `acc` the pending digit accumulator;
`flush()` errors on an empty accumulator (`Unsupported version string`);
a character outside digits, `'.'` and `'abc'` errors
(`Illegal character ... in version string`).  Python's `c.isdigit()` is
modelled as ASCII `Char.isDigit`. -/
def versionSplitGo : List Char → List Int → List Char → Except String (List Int)
  | [], version, acc =>
    if acc.isEmpty then .error "Unsupported version string"
    else .ok (version ++ [digitsVal acc])
  | c :: cs, version, acc =>
    if c.isDigit then versionSplitGo cs version (acc ++ [c])
    else if c = '.' then
      if acc.isEmpty then .error "Unsupported version string"
      else versionSplitGo cs (version ++ [digitsVal acc]) []
    else if c = 'a' ∨ c = 'b' ∨ c = 'c' then
      if acc.isEmpty then .error "Unsupported version string"
      else versionSplitGo cs (version ++ [digitsVal acc, abcVal c]) []
    else .error "Illegal character in version string"

/-- `_version_splitter` from libclinic/version.py: splits a version string
into a tuple of integers, mapping the pre-release letters a, b, c to -3,
-2, -1, inserted after the flushed numeric component. -/
def _version_splitter (s : String) : Except String (List Int) :=
  versionSplitGo s.toList [] []

/-- Tail of the comparison loop once the second tuple is exhausted: each
remaining component `a` of the first tuple is compared against the
`fillvalue` 0. -/
def cmp_rest_left : List Int → Int
  | [] => 0
  | a :: xs => if a < 0 then -1 else if 0 < a then 1 else cmp_rest_left xs

/-- Tail of the comparison loop once the first tuple is exhausted: 0 is
compared against each remaining component `b` of the second tuple. -/
def cmp_rest_right : List Int → Int
  | [] => 0
  | b :: ys => if 0 < b then -1 else if b < 0 then 1 else cmp_rest_right ys

/-- The `zip_longest(..., fillvalue=0)` comparison loop of
`version_comparator` (libclinic/version.py): first differing component
decides; an exhausted side is padded with zeros. -/
def cmp_tuples : List Int → List Int → Int
  | [], ys => cmp_rest_right ys
  | xs, [] => cmp_rest_left xs
  | a :: xs, b :: ys => if a < b then -1 else if b < a then 1 else cmp_tuples xs ys

/-- `version_comparator` from libclinic/version.py; a `ParseVersionError`
raised by either `_version_splitter` call propagates (the first argument is
split first). -/
def version_comparator (version1 version2 : String) : Except String Int :=
  match _version_splitter version1, _version_splitter version2 with
  | .ok t1, .ok t2 => .ok (cmp_tuples t1 t2)
  | .error e, _ => .error e
  | .ok _, .error e => .error e

/-- C6: `"1.4b3"` splits to `(1, 4, -2, 3)` (the `b` maps to -2, inserted
before the following numeric component), `"1.4.0"` splits to `(1, 4, 0)`,
and the comparator — zero-padding the shorter tuple — returns -1 ("less
than") because component 3 is -2 versus 0. -/
theorem version_comparator_example_claim :
    _version_splitter "1.4b3" = Except.ok [1, 4, -2, 3] ∧
    _version_splitter "1.4.0" = Except.ok [1, 4, 0] ∧
    cmp_tuples [1, 4, -2, 3] [1, 4, 0] = -1 ∧
    version_comparator "1.4b3" "1.4.0" = Except.ok (-1) := by
  refine ⟨rfl, rfl, ?_, rfl⟩
  rfl

theorem cmp_rest_antisymm : ∀ ys : List Int, cmp_rest_right ys = -cmp_rest_left ys := by
  intro ys
  induction ys with
  | nil => simp [cmp_rest_right, cmp_rest_left]
  | cons b ys ih =>
    by_cases h1 : b < 0
    · have h2 : ¬0 < b := by omega
      simp [cmp_rest_right, cmp_rest_left, h1, h2]
    · by_cases h2 : 0 < b
      · simp [cmp_rest_right, cmp_rest_left, h1, h2]
      · simp [cmp_rest_right, cmp_rest_left, h1, h2, ih]

theorem cmp_tuples_antisymm : ∀ xs ys : List Int, cmp_tuples ys xs = -cmp_tuples xs ys := by
  intro xs
  induction xs with
  | nil =>
    intro ys
    cases ys with
    | nil => simp [cmp_tuples, cmp_rest_right]
    | cons b ys => simp [cmp_tuples, cmp_rest_antisymm]
  | cons a xs iha =>
    intro ys
    cases ys with
    | nil => simp [cmp_tuples, cmp_rest_antisymm]
    | cons b ys =>
      by_cases h1 : a < b
      · have h2 : ¬b < a := by omega
        simp [cmp_tuples, h1, h2]
      · by_cases h2 : b < a
        · simp [cmp_tuples, h1, h2]
        · simp [cmp_tuples, h1, h2, iha ys]

theorem cmp_tuples_self (xs : List Int) : cmp_tuples xs xs = 0 := by
  have := cmp_tuples_antisymm xs xs
  omega

/-- C9: for version strings that both parse, swapping the arguments of
`version_comparator` negates the result; and comparing a well-formed version
string with itself yields 0. -/
theorem version_comparator_antisymm_claim :
    (∀ (v1 v2 : String) (r : Int), version_comparator v1 v2 = Except.ok r →
        version_comparator v2 v1 = Except.ok (-r)) ∧
    (∀ (v : String) (t : List Int), _version_splitter v = Except.ok t →
        version_comparator v v = Except.ok 0) := by
  constructor
  · intro v1 v2 r h
    cases h1 : _version_splitter v1 with
    | error e1 =>
      simp only [version_comparator, h1] at h
      cases h
    | ok t1 =>
      cases h2 : _version_splitter v2 with
      | error e2 =>
        simp only [version_comparator, h1, h2] at h
        cases h
      | ok t2 =>
        simp only [version_comparator, h1, h2, Except.ok.injEq] at h
        simp only [version_comparator, h1, h2, Except.ok.injEq]
        rw [← h, cmp_tuples_antisymm]
  · intro v t h
    simp only [version_comparator, h, Except.ok.injEq]
    exact cmp_tuples_self t

/-- Witness for C9: antisymmetry applied at `"1.0"` versus `"2.0"`, and
reflexivity at `"1.0"`. -/
theorem version_comparator_antisymm_claim_witness :
    version_comparator "2.0" "1.0" = Except.ok (-(-1)) ∧
    version_comparator "1.0" "1.0" = Except.ok 0 := by
  constructor
  · exact version_comparator_antisymm_claim.1 "1.0" "2.0" (-1) (by rfl)
  · exact version_comparator_antisymm_claim.2 "1.0" [1, 0] (by rfl)

/-- The four error classes of the spec taxonomy that belong to the
`ClinicError` family caught by `main` in libclinic/cli.py. -/
inductive ClinicErrorKind
  | parseErr
  | converterNotFound
  | structural
  | checksumMismatch
deriving DecidableEq, Repr

/-- Modelled from the spec: the error class hierarchy of `libclinic.errors`
is not under src/ (only `ClinicError` is imported by cli.py).  Per the
spec's taxonomy, `ParseError`, `ConverterNotFoundError`, `StructuralError`
and `ChecksumMismatchError` are the `ClinicError` family, which derives from
`Exception`.  `ParseVersionError` however IS under src/
(Tools/clinic/libclinic/version.py, line 6): it subclasses `BaseException`
directly, so it is not a `ClinicError`; `otherErr` stands for any further
unexpected exception. -/
inductive ClinicException
  | clinicError : ClinicErrorKind → ClinicException
  | parseVersionErr : ClinicException
  | otherErr : ClinicException
deriving DecidableEq, Repr

/-- The `except ClinicError` test of `main` in libclinic/cli.py: only the
`ClinicError` family is caught; `ParseVersionError(BaseException)` and any
other exception are not. -/
def isClinicError : ClinicException → Bool
  | .clinicError _ => true
  | _ => false

/-- Outcome of one run of the driver `main`: a process exit with a code and
the optional one-line diagnostic written to stderr, or an exception
propagating uncaught out of `main`. -/
inductive DriverOutcome
  | exitWith : Nat → Option String → DriverOutcome
  | uncaught : ClinicException → DriverOutcome
deriving DecidableEq, Repr

/-- `main` from libclinic/cli.py: runs `run_clinic`; on `ClinicError` it
writes `exc.report()` (abstracted as `report`) to stderr and exits 1; on
success it exits 0; any other exception propagates.  `run` is the outcome
of `run_clinic(parser, args)`. -/
def clinic_main (report : ClinicException → String)
    (run : Except ClinicException Unit) : DriverOutcome :=
  match run with
  | .ok _ => .exitWith 0 none
  | .error e =>
    if isClinicError e then .exitWith 1 (some (report e)) else .uncaught e

/-- Counterexample to C7 as stated: a run failing with `ParseVersionError`
— a member of the spec's tagged taxonomy — does not exit with code 1; it
propagates uncaught, because `ParseVersionError` subclasses `BaseException`
directly and `main` catches only `ClinicError`. -/
theorem clinic_main_version_error_cex :
    clinic_main (fun _ => "diagnostic") (Except.error ClinicException.parseVersionErr) =
      DriverOutcome.uncaught ClinicException.parseVersionErr ∧
    clinic_main (fun _ => "diagnostic") (Except.error ClinicException.parseVersionErr) ≠
      DriverOutcome.exitWith 1 (some "diagnostic") := by
  constructor
  · rfl
  · intro h
    cases h

/-- C7 amended: the driver exits 0 on success; on a `ClinicError`-family
error (ParseError, ConverterNotFoundError, StructuralError,
ChecksumMismatchError) it writes the one-line diagnostic to the error
stream and exits 1; every error outside that family — including
`ParseVersionError`, which subclasses `BaseException` directly — propagates
as a fatal, uncaught condition. -/
theorem clinic_main_exit_claim :
    (∀ (report : ClinicException → String) (k : ClinicErrorKind),
        clinic_main report (Except.error (ClinicException.clinicError k)) =
          DriverOutcome.exitWith 1 (some (report (ClinicException.clinicError k)))) ∧
    (∀ report : ClinicException → String,
        clinic_main report (Except.ok ()) = DriverOutcome.exitWith 0 none) ∧
    (∀ (report : ClinicException → String) (e : ClinicException),
        isClinicError e = false →
        clinic_main report (Except.error e) = DriverOutcome.uncaught e) := by
  refine ⟨fun report k => rfl, fun report => rfl, fun report e he => ?_⟩
  simp [clinic_main, he]

/-- Witness for C7 (amended): the uncaught branch applied at
`ParseVersionError`. -/
theorem clinic_main_exit_claim_witness :
    clinic_main (fun _ => "diagnostic") (Except.error ClinicException.parseVersionErr) =
      DriverOutcome.uncaught ClinicException.parseVersionErr :=
  clinic_main_exit_claim.2.2 (fun _ => "diagnostic")
    ClinicException.parseVersionErr rfl

/-- Result of `parse_file` in libclinic/cli.py for one input file:
a raised `ClinicError` (no write), an early return (no write), or a call
`write_file(output, cooked)`. -/
inductive FileOutcome
  | errored : String → FileOutcome
  | returned : FileOutcome
  | wrote : String → String → FileOutcome
deriving DecidableEq, Repr

/-- Modelled from the spec: `BlockParser.find_start_re`, `Clinic.parse` and
`libclinic.write_file` are not under src/ and appear as the parameters
`findStart` (the start-marker search) and `clinicParse` (DSL parse plus
render of the whole text).  `langOk` stands for the extension and language
table lookup of cli.py succeeding (`ClinicError` otherwise).  The control
flow mirrors `parse_file` in src/Tools/clinic/libclinic/cli.py: default the
output path to the input path, resolve the language, read the text, return
early when no start marker occurs anywhere in the text, otherwise parse and
write. -/
def cli_parse_file (langOk : Bool) (findStart : String → Bool)
    (clinicParse : String → String) (filename raw : String)
    (output : Option String) : FileOutcome :=
  let out := output.getD filename
  if !langOk then .errored filename
  else if !findStart raw then .returned
  else .wrote out (clinicParse raw)

/-- C8: when the text of the input file contains no start marker, the fast
path returns before any parsing, rendering or write: `parse_file` performs
no write at all (the file stays unchanged), and on a supported file type it
returns normally. -/
theorem parse_file_no_marker_claim :
    ∀ (langOk : Bool) (findStart : String → Bool)
      (clinicParse : String → String) (filename raw : String)
      (output : Option String),
      findStart raw = false →
      (∀ o c, cli_parse_file langOk findStart clinicParse filename raw output ≠
          FileOutcome.wrote o c) ∧
      (langOk = true →
        cli_parse_file langOk findStart clinicParse filename raw output =
          FileOutcome.returned) := by
  intro langOk findStart clinicParse filename raw output h
  constructor
  · intro o c
    cases langOk with
    | false => simp [cli_parse_file]
    | true => simp [cli_parse_file, h]
  · intro hl
    subst hl
    simp [cli_parse_file, h]

/-- Witness for C8: a concrete no-marker file triggers the early return. -/
theorem parse_file_no_marker_claim_witness :
    cli_parse_file true (fun _ => false) (fun s => s) "f.c" "int main;" none =
      FileOutcome.returned :=
  (parse_file_no_marker_claim true (fun _ => false) (fun s => s) "f.c"
    "int main;" none rfl).2 rfl

end ArgClinic

